import Mathlib

/-!
Verification of `stark-brainfuck/src/memory_table.rs` (memory-consistency table
of the Brainfuck STARK arithmetization).

Field layer: the repository's field types live in the external `twenty-first`
support library.  `BFieldElement` is the prime field with the Goldilocks
modulus 2^64 - 2^32 + 1; `XFieldElement` is its degree-3 extension by the
Shah polynomial x^3 - x + 1.  Multivariate polynomials (`MPolynomial`) are
modelled shallowly by their evaluation functions: every claim about them
concerns evaluation at concrete points, which this semantics captures exactly.
-/

/-- The Goldilocks prime 2^64 - 2^32 + 1, the modulus of `BFieldElement`. -/
def goldilocks : Nat := 18446744069414584321

/-- Base-field elements (`BFieldElement` in the `twenty-first` library). -/
abbrev BFieldElement : Type := ZMod goldilocks

/-- Extension-field elements (`XFieldElement`): coefficients of a residue
class modulo the Shah polynomial x^3 - x + 1, lowest degree first. -/
@[ext]
structure XFieldElement where
  coefficient0 : BFieldElement
  coefficient1 : BFieldElement
  coefficient2 : BFieldElement
deriving DecidableEq

/-- Componentwise addition of extension-field elements. -/
def XFieldElement.add (a b : XFieldElement) : XFieldElement :=
  ⟨a.coefficient0 + b.coefficient0, a.coefficient1 + b.coefficient1,
   a.coefficient2 + b.coefficient2⟩

/-- Componentwise negation of extension-field elements. -/
def XFieldElement.neg (a : XFieldElement) : XFieldElement :=
  ⟨-a.coefficient0, -a.coefficient1, -a.coefficient2⟩

/-- Componentwise subtraction of extension-field elements. -/
def XFieldElement.sub (a b : XFieldElement) : XFieldElement :=
  ⟨a.coefficient0 - b.coefficient0, a.coefficient1 - b.coefficient1,
   a.coefficient2 - b.coefficient2⟩

/-- Product of extension-field elements, reduced by x^3 = x - 1
(equivalently x^4 = x^2 - x), matching `twenty-first`'s Shah-polynomial
multiplication. -/
def XFieldElement.mul (a b : XFieldElement) : XFieldElement :=
  ⟨a.coefficient0 * b.coefficient0
     - (a.coefficient1 * b.coefficient2 + a.coefficient2 * b.coefficient1),
   a.coefficient0 * b.coefficient1 + a.coefficient1 * b.coefficient0
     + (a.coefficient1 * b.coefficient2 + a.coefficient2 * b.coefficient1)
     - a.coefficient2 * b.coefficient2,
   a.coefficient0 * b.coefficient2 + a.coefficient1 * b.coefficient1
     + a.coefficient2 * b.coefficient0 + a.coefficient2 * b.coefficient2⟩

instance : Zero XFieldElement := ⟨⟨0, 0, 0⟩⟩

instance : One XFieldElement := ⟨⟨1, 0, 0⟩⟩

instance : Add XFieldElement := ⟨XFieldElement.add⟩

instance : Mul XFieldElement := ⟨XFieldElement.mul⟩

instance : Neg XFieldElement := ⟨XFieldElement.neg⟩

instance : Sub XFieldElement := ⟨XFieldElement.sub⟩

set_option maxHeartbeats 2000000 in
instance : CommRing XFieldElement where
  add := XFieldElement.add
  zero := ⟨0, 0, 0⟩
  one := ⟨1, 0, 0⟩
  mul := XFieldElement.mul
  neg := XFieldElement.neg
  sub := XFieldElement.sub
  nsmul := nsmulRec
  zsmul := zsmulRec
  add_assoc := by
    rintro ⟨a0, a1, a2⟩ ⟨b0, b1, b2⟩ ⟨c0, c1, c2⟩
    show XFieldElement.add (XFieldElement.add ⟨a0, a1, a2⟩ ⟨b0, b1, b2⟩) ⟨c0, c1, c2⟩ =
      XFieldElement.add ⟨a0, a1, a2⟩ (XFieldElement.add ⟨b0, b1, b2⟩ ⟨c0, c1, c2⟩)
    apply XFieldElement.ext <;> simp [XFieldElement.add] <;> ring
  zero_add := by
    rintro ⟨a0, a1, a2⟩
    show XFieldElement.add ⟨0, 0, 0⟩ ⟨a0, a1, a2⟩ = ⟨a0, a1, a2⟩
    apply XFieldElement.ext <;> simp [XFieldElement.add]
  add_zero := by
    rintro ⟨a0, a1, a2⟩
    show XFieldElement.add ⟨a0, a1, a2⟩ ⟨0, 0, 0⟩ = ⟨a0, a1, a2⟩
    apply XFieldElement.ext <;> simp [XFieldElement.add]
  add_comm := by
    rintro ⟨a0, a1, a2⟩ ⟨b0, b1, b2⟩
    show XFieldElement.add ⟨a0, a1, a2⟩ ⟨b0, b1, b2⟩ =
      XFieldElement.add ⟨b0, b1, b2⟩ ⟨a0, a1, a2⟩
    apply XFieldElement.ext <;> simp [XFieldElement.add] <;> ring
  left_distrib := by
    rintro ⟨a0, a1, a2⟩ ⟨b0, b1, b2⟩ ⟨c0, c1, c2⟩
    show XFieldElement.mul ⟨a0, a1, a2⟩ (XFieldElement.add ⟨b0, b1, b2⟩ ⟨c0, c1, c2⟩) =
      XFieldElement.add (XFieldElement.mul ⟨a0, a1, a2⟩ ⟨b0, b1, b2⟩)
        (XFieldElement.mul ⟨a0, a1, a2⟩ ⟨c0, c1, c2⟩)
    apply XFieldElement.ext <;> simp [XFieldElement.add, XFieldElement.mul] <;> ring
  right_distrib := by
    rintro ⟨a0, a1, a2⟩ ⟨b0, b1, b2⟩ ⟨c0, c1, c2⟩
    show XFieldElement.mul (XFieldElement.add ⟨a0, a1, a2⟩ ⟨b0, b1, b2⟩) ⟨c0, c1, c2⟩ =
      XFieldElement.add (XFieldElement.mul ⟨a0, a1, a2⟩ ⟨c0, c1, c2⟩)
        (XFieldElement.mul ⟨b0, b1, b2⟩ ⟨c0, c1, c2⟩)
    apply XFieldElement.ext <;> simp [XFieldElement.add, XFieldElement.mul] <;> ring
  zero_mul := by
    rintro ⟨a0, a1, a2⟩
    show XFieldElement.mul ⟨0, 0, 0⟩ ⟨a0, a1, a2⟩ = ⟨0, 0, 0⟩
    apply XFieldElement.ext <;> simp [XFieldElement.mul]
  mul_zero := by
    rintro ⟨a0, a1, a2⟩
    show XFieldElement.mul ⟨a0, a1, a2⟩ ⟨0, 0, 0⟩ = ⟨0, 0, 0⟩
    apply XFieldElement.ext <;> simp [XFieldElement.mul]
  mul_assoc := by
    rintro ⟨a0, a1, a2⟩ ⟨b0, b1, b2⟩ ⟨c0, c1, c2⟩
    show XFieldElement.mul (XFieldElement.mul ⟨a0, a1, a2⟩ ⟨b0, b1, b2⟩) ⟨c0, c1, c2⟩ =
      XFieldElement.mul ⟨a0, a1, a2⟩ (XFieldElement.mul ⟨b0, b1, b2⟩ ⟨c0, c1, c2⟩)
    apply XFieldElement.ext <;> simp [XFieldElement.mul] <;> ring
  one_mul := by
    rintro ⟨a0, a1, a2⟩
    show XFieldElement.mul ⟨1, 0, 0⟩ ⟨a0, a1, a2⟩ = ⟨a0, a1, a2⟩
    apply XFieldElement.ext <;> simp [XFieldElement.mul]
  mul_one := by
    rintro ⟨a0, a1, a2⟩
    show XFieldElement.mul ⟨a0, a1, a2⟩ ⟨1, 0, 0⟩ = ⟨a0, a1, a2⟩
    apply XFieldElement.ext <;> simp [XFieldElement.mul]
  sub_eq_add_neg := by
    rintro ⟨a0, a1, a2⟩ ⟨b0, b1, b2⟩
    show XFieldElement.sub ⟨a0, a1, a2⟩ ⟨b0, b1, b2⟩ =
      XFieldElement.add ⟨a0, a1, a2⟩ (XFieldElement.neg ⟨b0, b1, b2⟩)
    apply XFieldElement.ext <;>
      simp [XFieldElement.sub, XFieldElement.add, XFieldElement.neg] <;> ring
  neg_add_cancel := by
    rintro ⟨a0, a1, a2⟩
    show XFieldElement.add (XFieldElement.neg ⟨a0, a1, a2⟩) ⟨a0, a1, a2⟩ = ⟨0, 0, 0⟩
    apply XFieldElement.ext <;> simp [XFieldElement.add, XFieldElement.neg]
  mul_comm := by
    rintro ⟨a0, a1, a2⟩ ⟨b0, b1, b2⟩
    show XFieldElement.mul ⟨a0, a1, a2⟩ ⟨b0, b1, b2⟩ =
      XFieldElement.mul ⟨b0, b1, b2⟩ ⟨a0, a1, a2⟩
    apply XFieldElement.ext <;> simp [XFieldElement.mul] <;> ring

/-- `BFieldElement::lift`: embed a base-field element as the constant
coefficient of an extension-field element. -/
def BFieldElement.lift (b : BFieldElement) : XFieldElement := ⟨b, 0, 0⟩

/-- Shallow embedding of `MPolynomial<F>` at a fixed variable count `n`: a
polynomial is represented by its evaluation function.  The ring operations
the source applies to polynomials (`+`, `-`, `*`, constants, variables) are
the pointwise ones, and `evaluate` is application, so every claim about
evaluation at a point is captured exactly by this semantics. -/
abbrev MPolynomial (R : Type) (n : Nat) : Type := (Fin n → R) → R

/-- One entry of `MPolynomial::variables(n)`: the polynomial consisting of
the single variable `i`. -/
def MPolynomial.xvar {R : Type} {n : Nat} (i : Fin n) : MPolynomial R n :=
  fun point => point i

/-- `MPolynomial::from_constant` at variable count `n`. -/
def MPolynomial.fromConstant {R : Type} (c : R) (n : Nat) : MPolynomial R n :=
  fun _ => c

/-- `MPolynomial::evaluate` at a point. -/
def MPolynomial.evaluate {R : Type} {n : Nat} (p : MPolynomial R n)
    (point : Fin n → R) : R :=
  p point

/-- Modelled from the spec: the VM `Register` snapshot produced by the
simulator (`vm.rs` is outside the given sources).  The spec's data model
lists exactly the four fields `derive_matrix` reads: cycle counter, memory
pointer, memory value, current instruction. -/
structure Register where
  cycle : BFieldElement
  memoryPointer : BFieldElement
  memoryValue : BFieldElement
  currentInstruction : BFieldElement
deriving DecidableEq

/-- A base-matrix row of the memory table.  The source stores rows as
vectors indexed by the column constants `CYCLE = 0`, `MEMORY_POINTER = 1`,
`MEMORY_VALUE = 2`, `INTERWEAVED = 3`; here each column is a named field in
that order. -/
structure MemoryRow where
  cycle : BFieldElement
  memoryPointer : BFieldElement
  memoryValue : BFieldElement
  interweaved : BFieldElement
deriving DecidableEq

/-- An extension-matrix row: the lift of a base row plus the appended
running-product column `PERMUTATION = 4`. -/
structure ExtendedRow where
  cycle : XFieldElement
  memoryPointer : XFieldElement
  memoryValue : XFieldElement
  interweaved : XFieldElement
  permutation : XFieldElement
deriving DecidableEq

/-- Modelled from the spec: the generic `Table<MemoryTableMore>` container
(`table.rs` is outside the given sources).  It carries exactly the state
the verified memory-table operations read or write: the base matrix, the
base codewords (filled by an external interpolation step), the extension
matrix and codewords produced by `extend`, and the `MemoryTableMore`
auxiliary scalar `permutation_terminal` (created as the additive identity
by `new_more`).  The geometry scalars (length, height, generator, order,
num_randomizers, name) are stored but never read by these operations and
are omitted. -/
structure MemoryTable where
  matrix : List MemoryRow
  codewords : List (List BFieldElement)
  extendedMatrix : List ExtendedRow
  extendedCodewords : List (List XFieldElement)
  permutationTerminal : XFieldElement
deriving DecidableEq

/-- Column index constants of `MemoryTable`. -/
def MemoryTable.CYCLE : Nat := 0

/-- Column index of the memory pointer. -/
def MemoryTable.MEMORY_POINTER : Nat := 1

/-- Column index of the memory value. -/
def MemoryTable.MEMORY_VALUE : Nat := 2

/-- Column index of the interweave flag. -/
def MemoryTable.INTERWEAVED : Nat := 3

/-- Column index of the running permutation product. -/
def MemoryTable.PERMUTATION : Nat := 4

/-- Width of the base table. -/
def MemoryTable.BASE_WIDTH : Nat := 4

/-- Width of the extended table. -/
def MemoryTable.FULL_WIDTH : Nat := 5

/-- Modelled from the spec: `other::is_power_of_two` from the external
`twenty-first` support library — whether `n` is a power of two (`0` is
not). -/
def is_power_of_two (n : Nat) : Bool :=
  (List.range (n + 1)).any fun k => n == 2 ^ k

/-- The row `MemoryTable::pad` appends in one loop iteration: a copy of the
current last row with its `CYCLE` entry incremented by one and its
`INTERWEAVED` entry set to one. -/
def MemoryTable.paddingRow (row : MemoryRow) : MemoryRow :=
  { row with cycle := row.cycle + 1, interweaved := 1 }

/-- The `while !is_power_of_two(matrix.len())` loop of `MemoryTable::pad`,
with an explicit iteration budget.  The Rust loop terminates after
`(next power of two ≥ len) − len` iterations, which is at most `len` for a
nonempty matrix (shown in the padding theorem below), so running the loop
with budget `len` is extensionally the Rust method on every nonempty
matrix.  On the empty matrix the source panics (`matrix.last().unwrap()`). -/
def MemoryTable.padLoop : Nat → List MemoryRow → List MemoryRow
  | 0, m => m
  | fuel + 1, m =>
    if is_power_of_two m.length then m
    else
      match m.getLast? with
      | none => m
      | some lastRow => MemoryTable.padLoop fuel (m ++ [MemoryTable.paddingRow lastRow])

/-- `MemoryTable::pad`. -/
def MemoryTable.pad (t : MemoryTable) : MemoryTable :=
  { t with matrix := MemoryTable.padLoop t.matrix.length t.matrix }

/-- The projection step of `derive_matrix`: drop the final trace row and map
each remaining register to `(cycle, memory_pointer, memory_value, 0)`. -/
def projectedRows (processorMatrix : List Register) : List MemoryRow :=
  processorMatrix.dropLast.map fun pt =>
    ⟨pt.cycle, pt.memoryPointer, pt.memoryValue, 0⟩

/-- The order used by `matrix.sort_by_key(|k| k[MEMORY_POINTER].value())`:
rows compared by the canonical integer value of their memory pointer.
Rust's `sort_by_key` is a stable sort, as is `List.insertionSort`. -/
def memoryPointerLe (a b : MemoryRow) : Prop :=
  a.memoryPointer.val ≤ b.memoryPointer.val

instance : DecidableRel memoryPointerLe := fun _ _ => Nat.decLe _ _

/-- The failure modes of `derive_matrix`, which is not total:
`unpaddedAssert` is the `assert!(!pt.current_instruction.is_zero())` panic;
`lengthUnderflow` is the failure of `matrix.len() - 1` at the interweaving
loop head when the projected matrix is empty (`usize` underflow panic in a
debug build, wrap-around followed by an out-of-bounds index panic in a
release build); `outOfFuel` marks an iteration budget too small for the
interweaving loop (the loop does not terminate on some inputs, e.g. equal
pointers with decreasing cycles, so the embedding is fuelled). -/
inductive DeriveError where
  | unpaddedAssert
  | lengthUnderflow
  | outOfFuel
deriving DecidableEq

/-- The interweaving loop of `derive_matrix`: starting from `i = 1` (as in
the source), while `i < matrix.len() - 1`, insert a synthetic row after
position `i` whenever rows `i` and `i + 1` share a memory pointer but their
cycles are not consecutive, then advance `i`.  The inserted row copies the
pointer and value of row `i`, carries `cycle + 1`, and is flagged with the
interweave indicator 1. -/
def interweaveLoop : Nat → Nat → List MemoryRow → Option (List MemoryRow)
  | 0, i, m => if i < m.length - 1 then none else some m
  | fuel + 1, i, m =>
    if h : i < m.length - 1 then
      let cur := m.get ⟨i, by omega⟩
      let nxt := m.get ⟨i + 1, by omega⟩
      if nxt.memoryPointer = cur.memoryPointer ∧ nxt.cycle ≠ cur.cycle + 1 then
        interweaveLoop fuel (i + 1)
          (m.insertIdx (i + 1) ⟨cur.cycle + 1, cur.memoryPointer, cur.memoryValue, 1⟩)
      else interweaveLoop fuel (i + 1) m
    else some m

instance {ε α : Type} [DecidableEq ε] [DecidableEq α] : DecidableEq (Except ε α) :=
  fun x y =>
    match x, y with
    | .ok a, .ok b =>
      if h : a = b then isTrue (congrArg Except.ok h)
      else isFalse fun hc => h (Except.ok.inj hc)
    | .error a, .error b =>
      if h : a = b then isTrue (congrArg Except.error h)
      else isFalse fun hc => h (Except.error.inj hc)
    | .ok _, .error _ => isFalse fun hc => Except.noConfusion hc
    | .error _, .ok _ => isFalse fun hc => Except.noConfusion hc

/-- `MemoryTable::derive_matrix`: project and sort the processor trace, then
run the interweaving loop.  A returned `.ok` value coincides with the Rust
result (the loop exited through its own condition within the budget). -/
def deriveMatrix (processorMatrix : List Register) (fuel : Nat) :
    Except DeriveError (List MemoryRow) :=
  if (processorMatrix.dropLast.any fun pt => pt.currentInstruction == 0) then
    .error .unpaddedAssert
  else
    let sorted := List.insertionSort memoryPointerLe (projectedRows processorMatrix)
    if sorted.length = 0 then .error .lengthUnderflow
    else
      match interweaveLoop fuel 1 sorted with
      | some m => .ok m
      | none => .error .outOfFuel

/-- `transition_constraints_afo_named_variables`, the shared builder of the
six base transition constraints, generic in the coefficient ring exactly as
the source applies it (over `BFieldElement` for the base table, and — after
`lift_coefficients_to_xfield`, which fixes the integer coefficients — over
`XFieldElement` inside `transition_constraints_ext`).  The source fixes
`variable_count = 2 * BASE_WIDTH` for the constant `one`; here the constant
adopts the arity `n` of the supplied variable polynomials. -/
def MemoryTable.transitionConstraintsAfoNamedVariables {R : Type} [CommRing R] {n : Nat}
    (cycle address value interweaved cycleNext addressNext valueNext interweavedNext :
      MPolynomial R n) :
    List (MPolynomial R n) :=
  let one : MPolynomial R n := MPolynomial.fromConstant 1 n
  [ -- 1. memory pointer increases by one or zero
   (addressNext - address - one) * (addressNext - address),
   -- 2. if the memory pointer does not increase, the clock cycle increases by one
   (addressNext - address - one) * (cycleNext - cycle - one),
   -- 3. on an interweaved row the memory pointer may not change
   interweaved * (addressNext - address),
   -- 4. on an interweaved row the memory value may not change
   interweaved * (value - valueNext),
   -- 5. the next interweave value is boolean
   interweavedNext * (interweavedNext - one),
   -- 6. if the memory pointer increases, the next memory value is zero
   (addressNext - address) * valueNext]

/-- `base_transition_constraints`: the six constraints over the
`2 * BASE_WIDTH = 8` variables `cycle, address, value, interweaved` of a row
followed by the same columns of its successor.  (The `&self` receiver of the
trait method is unused.) -/
def MemoryTable.baseTransitionConstraints : List (MPolynomial BFieldElement 8) :=
  MemoryTable.transitionConstraintsAfoNamedVariables
    (MPolynomial.xvar 0) (MPolynomial.xvar 1) (MPolynomial.xvar 2) (MPolynomial.xvar 3)
    (MPolynomial.xvar 4) (MPolynomial.xvar 5) (MPolynomial.xvar 6) (MPolynomial.xvar 7)

/-- `base_boundary_constraints` is a bare `todo!()`: the call panics
unconditionally.  It is modelled as an `Option` that is constantly `none`:
no constraint list — empty, wrong-arity or otherwise — is ever produced. -/
def MemoryTable.baseBoundaryConstraints (_t : MemoryTable) :
    Option (List (MPolynomial BFieldElement 4)) :=
  none

/-- The row-by-row loop of `MemoryTable::extend`: lift each base row,
append the current running product as its `PERMUTATION` column, and then —
exactly when the lifted `INTERWEAVED` entry is zero — multiply the running
product by `beta - d·cycle - e·memory_pointer - f·memory_value`.  Returns
the extended rows together with the final running product. -/
def extendRows (d e f beta : XFieldElement) (runningProduct : XFieldElement) :
    List MemoryRow → List ExtendedRow × XFieldElement
  | [] => ([], runningProduct)
  | row :: rest =>
    let newRow : ExtendedRow :=
      ⟨BFieldElement.lift row.cycle, BFieldElement.lift row.memoryPointer,
       BFieldElement.lift row.memoryValue, BFieldElement.lift row.interweaved,
       runningProduct⟩
    let nextProduct :=
      if newRow.interweaved = 0 then
        runningProduct *
          (beta - d * newRow.cycle - e * newRow.memoryPointer - f * newRow.memoryValue)
      else runningProduct
    let tail := extendRows d e f beta nextProduct rest
    (newRow :: tail.1, tail.2)

/-- `MemoryTable::extend`: destructure the 11 challenges (this table uses
`d = challenges[3]`, `e = challenges[4]`, `f = challenges[5]`,
`beta = challenges[7]`) and the 2 initials (this table uses
`processor_memory_permutation_initial = initials[1]`), build the extended
matrix and the lifted codewords, and record the final running product as
`permutation_terminal`. -/
def MemoryTable.extend (t : MemoryTable)
    (allChallenges : Fin 11 → XFieldElement)
    (allInitials : Fin 2 → XFieldElement) : MemoryTable :=
  let d := allChallenges 3
  let e := allChallenges 4
  let f := allChallenges 5
  let beta := allChallenges 7
  let processorMemoryPermutationInitial := allInitials 1
  let result := extendRows d e f beta processorMemoryPermutationInitial t.matrix
  { t with
    extendedMatrix := result.1
    extendedCodewords := t.codewords.map fun codeword => codeword.map BFieldElement.lift
    permutationTerminal := result.2 }

/-- `transition_constraints_ext`: over the `2 * FULL_WIDTH = 10` variables
of two consecutive extended rows, the six base constraints (built by the
shared builder from the non-`PERMUTATION` variable positions 0–3 and 5–8,
with coefficients lifted into the extension field) followed by the
running-product identity relating `permutation` (position 4) and
`permutation_next` (position 9). -/
def MemoryTable.transitionConstraintsExt (challenges : Fin 11 → XFieldElement) :
    List (MPolynomial XFieldElement 10) :=
  let d := MPolynomial.fromConstant (challenges 3) 10
  let e := MPolynomial.fromConstant (challenges 4) 10
  let f := MPolynomial.fromConstant (challenges 5) 10
  let beta := MPolynomial.fromConstant (challenges 7) 10
  let liftedBasePolynomials :=
    MemoryTable.transitionConstraintsAfoNamedVariables (R := XFieldElement)
      (MPolynomial.xvar 0) (MPolynomial.xvar 1) (MPolynomial.xvar 2) (MPolynomial.xvar 3)
      (MPolynomial.xvar 5) (MPolynomial.xvar 6) (MPolynomial.xvar 7) (MPolynomial.xvar 8)
  let cycle : MPolynomial XFieldElement 10 := MPolynomial.xvar 0
  let address : MPolynomial XFieldElement 10 := MPolynomial.xvar 1
  let value : MPolynomial XFieldElement 10 := MPolynomial.xvar 2
  let interweaved : MPolynomial XFieldElement 10 := MPolynomial.xvar 3
  let permutation : MPolynomial XFieldElement 10 := MPolynomial.xvar 4
  let permutationNext : MPolynomial XFieldElement 10 := MPolynomial.xvar 9
  let one : MPolynomial XFieldElement 10 := MPolynomial.fromConstant 1 10
  liftedBasePolynomials ++
    [permutation *
        ((beta - d * cycle - e * address - f * value) * (one - interweaved) + interweaved)
      - permutationNext]

/-- `boundary_constraints_ext`: over the `FULL_WIDTH = 5` variables of one
extended row, the three polynomials fixing the `CYCLE`, `MEMORY_POINTER`
and `MEMORY_VALUE` entries of row zero (the `challenges` argument is
unused, and neither the `INTERWEAVED` nor the `PERMUTATION` variable
occurs). -/
def MemoryTable.boundaryConstraintsExt (_challenges : Fin 11 → XFieldElement) :
    List (MPolynomial XFieldElement 5) :=
  let zero : MPolynomial XFieldElement 5 := 0
  let cycle : MPolynomial XFieldElement 5 := MPolynomial.xvar 0
  let memoryPointer : MPolynomial XFieldElement 5 := MPolynomial.xvar 1
  let memoryValue : MPolynomial XFieldElement 5 := MPolynomial.xvar 2
  [cycle - zero, memoryPointer - zero, memoryValue - zero]

/-- `terminal_constraints_ext`: over the `FULL_WIDTH = 5` variables of the
final extended row, the single polynomial combining the running product
with `processor_memory_permutation_terminal = terminals[1]`, with the
non-interweaved case taking one more factor and the interweaved case
comparing the running product directly. -/
def MemoryTable.terminalConstraintsExt (challenges : Fin 11 → XFieldElement)
    (terminals : Fin 2 → XFieldElement) :
    List (MPolynomial XFieldElement 5) :=
  let d := MPolynomial.fromConstant (challenges 3) 5
  let e := MPolynomial.fromConstant (challenges 4) 5
  let f := MPolynomial.fromConstant (challenges 5) 5
  let beta := MPolynomial.fromConstant (challenges 7) 5
  let processorMemoryPermutationTerminal :=
    MPolynomial.fromConstant (terminals 1) 5
  let cycle : MPolynomial XFieldElement 5 := MPolynomial.xvar 0
  let memoryPointer : MPolynomial XFieldElement 5 := MPolynomial.xvar 1
  let memoryValue : MPolynomial XFieldElement 5 := MPolynomial.xvar 2
  let interweaved : MPolynomial XFieldElement 5 := MPolynomial.xvar 3
  let permutation : MPolynomial XFieldElement 5 := MPolynomial.xvar 4
  let one : MPolynomial XFieldElement 5 := MPolynomial.fromConstant 1 5
  [(permutation * (beta - d * cycle - e * memoryPointer - f * memoryValue)
      - processorMemoryPermutationTerminal) * (one - interweaved)
    + (permutation - processorMemoryPermutationTerminal) * interweaved]

/-- The point of size `2 * BASE_WIDTH` formed by concatenating a base row
and its successor, as fed to the base transition constraints. -/
def basePairPoint (row nextRow : MemoryRow) : Fin 8 → BFieldElement :=
  fun i =>
    match i with
    | 0 => row.cycle
    | 1 => row.memoryPointer
    | 2 => row.memoryValue
    | 3 => row.interweaved
    | 4 => nextRow.cycle
    | 5 => nextRow.memoryPointer
    | 6 => nextRow.memoryValue
    | 7 => nextRow.interweaved

/-- The point of size `2 * FULL_WIDTH` formed by concatenating an extended
row and its successor, as fed to the extension transition constraints. -/
def extendedPairPoint (row nextRow : ExtendedRow) : Fin 10 → XFieldElement :=
  fun i =>
    match i with
    | 0 => row.cycle
    | 1 => row.memoryPointer
    | 2 => row.memoryValue
    | 3 => row.interweaved
    | 4 => row.permutation
    | 5 => nextRow.cycle
    | 6 => nextRow.memoryPointer
    | 7 => nextRow.memoryValue
    | 8 => nextRow.interweaved
    | 9 => nextRow.permutation

/-- The point of size `FULL_WIDTH` formed from one extended row, as fed to
the extension boundary and terminal constraints. -/
def extendedRowPoint (row : ExtendedRow) : Fin 5 → XFieldElement :=
  fun i =>
    match i with
    | 0 => row.cycle
    | 1 => row.memoryPointer
    | 2 => row.memoryValue
    | 3 => row.interweaved
    | 4 => row.permutation

/-- The lift of a base row extended with a given permutation column, the
shape of every row `extend` produces. -/
def liftRow (row : MemoryRow) (permutation : XFieldElement) : ExtendedRow :=
  ⟨BFieldElement.lift row.cycle, BFieldElement.lift row.memoryPointer,
   BFieldElement.lift row.memoryValue, BFieldElement.lift row.interweaved, permutation⟩

/-- The factor a non-interweaved row contributes to the running permutation
product: `beta - d·cycle - e·memory_pointer - f·memory_value` with
`d, e, f, beta` read from challenge indices 3, 4, 5, 7. -/
def rowFactor (challenges : Fin 11 → XFieldElement) (row : MemoryRow) : XFieldElement :=
  challenges 7 - challenges 3 * BFieldElement.lift row.cycle
    - challenges 4 * BFieldElement.lift row.memoryPointer
    - challenges 5 * BFieldElement.lift row.memoryValue

/-- The product of the `rowFactor`s of the non-interweaved rows of a
matrix; interweaved rows contribute no factor. -/
def permutationProduct (challenges : Fin 11 → XFieldElement)
    (rows : List MemoryRow) : XFieldElement :=
  ((rows.filter fun row => row.interweaved == 0).map (rowFactor challenges)).prod

/-- Register trace of the Brainfuck program `> < +` (instruction tags 62,
60, 43): one step right at cycle 0, back left at cycle 1, an increment of
cell 0 at cycle 2, and the final (discarded) snapshot at cycle 3.  Cell 0
is addressed at cycles 0 and 2 but at no cycle in between, so the two
cell-0 rows head the sorted matrix with a cycle gap. -/
def traceA : List Register :=
  [⟨0, 0, 0, 62⟩, ⟨1, 1, 0, 60⟩, ⟨2, 0, 0, 43⟩, ⟨3, 0, 1, 0⟩]

/-- The matrix `derive_matrix` returns on `traceA`: sorted by pointer, with
no synthetic row between the two cell-0 rows. -/
def derivedA : List MemoryRow :=
  [⟨0, 0, 0, 0⟩, ⟨2, 0, 0, 0⟩, ⟨1, 1, 0, 0⟩]

/-- Register trace of the Brainfuck program `> > < < +` (tags 62, 62, 60,
60, 43): cell 0 is addressed at cycles 0 and 4, cell 1 at cycles 1 and 3,
cell 2 at cycle 2. -/
def traceB : List Register :=
  [⟨0, 0, 0, 62⟩, ⟨1, 1, 0, 62⟩, ⟨2, 2, 0, 60⟩, ⟨3, 1, 0, 60⟩, ⟨4, 0, 0, 43⟩,
   ⟨5, 0, 1, 0⟩]

/-- The matrix `derive_matrix` returns on `traceB`: the cycle gap inside
the cell-1 pair (positions 2 and 3 before insertion) is interweaved, the
cycle gap of the leading cell-0 pair is not. -/
def derivedB : List MemoryRow :=
  [⟨0, 0, 0, 0⟩, ⟨4, 0, 0, 0⟩, ⟨1, 1, 0, 0⟩, ⟨2, 1, 0, 1⟩, ⟨3, 1, 0, 0⟩,
   ⟨2, 2, 0, 0⟩]

/-- Register trace of the Brainfuck program `> + < +` (tags 62, 43, 60,
43): cell 0 addressed at cycles 0 and 3, cell 1 at cycles 1 and 2. -/
def traceC : List Register :=
  [⟨0, 0, 0, 62⟩, ⟨1, 1, 0, 43⟩, ⟨2, 1, 1, 60⟩, ⟨3, 0, 0, 43⟩, ⟨4, 0, 1, 0⟩]

/-- The matrix `derive_matrix` returns on `traceC`; it has four rows, so
`pad` leaves it unchanged. -/
def derivedC : List MemoryRow :=
  [⟨0, 0, 0, 0⟩, ⟨3, 0, 0, 0⟩, ⟨1, 1, 0, 0⟩, ⟨2, 1, 1, 0⟩]

/-- A memory table holding `derivedC` as its base matrix. -/
def tableC : MemoryTable :=
  { matrix := derivedC
    codewords := []
    extendedMatrix := []
    extendedCodewords := []
    permutationTerminal := 0 }

/-- An all-zero challenge tuple. -/
def challengesZero : Fin 11 → XFieldElement := fun _ => 0

/-- An all-zero initials tuple. -/
def initialsZero : Fin 2 → XFieldElement := fun _ => 0

/-- The extended matrix `extend` builds from `tableC` under all-zero
challenges and initials: every appended running product is zero. -/
def extendedC : List ExtendedRow :=
  [liftRow ⟨0, 0, 0, 0⟩ 0, liftRow ⟨3, 0, 0, 0⟩ 0, liftRow ⟨1, 1, 0, 0⟩ 0,
   liftRow ⟨2, 1, 1, 0⟩ 0]

/-- A one-row memory table used to instantiate theorems with hypotheses. -/
def tableOne : MemoryTable :=
  { matrix := [⟨0, 0, 0, 0⟩]
    codewords := []
    extendedMatrix := []
    extendedCodewords := []
    permutationTerminal := 0 }

/-- A challenge tuple that differs from `challengesZero` exactly at the
unused index 0. -/
def challengesAtZero : Fin 11 → XFieldElement :=
  fun i => if i = 0 then ⟨1, 0, 0⟩ else 0

/-- An initials tuple that differs from `initialsZero` exactly at the
unused index 0. -/
def initialsAtZero : Fin 2 → XFieldElement :=
  fun i => if i = 0 then ⟨5, 0, 0⟩ else 0

/-- A constant initials tuple with a nonzero permutation-argument seed. -/
def initialsTwo : Fin 2 → XFieldElement := fun _ => ⟨2, 0, 0⟩

/-- An all-zero terminals tuple. -/
def terminalsZero : Fin 2 → XFieldElement := fun _ => 0

theorem BFieldElement.lift_zero : BFieldElement.lift 0 = 0 := rfl

theorem BFieldElement.lift_one : BFieldElement.lift 1 = 1 := rfl

theorem BFieldElement.lift_eq_zero {b : BFieldElement} :
    BFieldElement.lift b = 0 ↔ b = 0 := by
  constructor
  · intro h
    exact congrArg XFieldElement.coefficient0 h
  · intro h
    rw [h]
    rfl

theorem is_power_of_two_iff (n : Nat) :
    is_power_of_two n = true ↔ ∃ k, n = 2 ^ k := by
  unfold is_power_of_two
  rw [List.any_eq_true]
  constructor
  · rintro ⟨k, -, hk⟩
    exact ⟨k, by simpa using hk⟩
  · rintro ⟨k, hk⟩
    have hlt : k < 2 ^ k := Nat.lt_two_pow k
    exact ⟨k, by rw [List.mem_range]; omega, by simpa using hk⟩

/-- Claim C1: for every register trace whose non-final rows all carry a
nonzero instruction tag, the matrix returned by `derive_matrix` has
consecutive cycles on every adjacent same-pointer row pair, and every
inserted synthetic row carries `cycle + 1`, the same pointer and value and
interweave flag 1.  The code violates this: on the genuine VM trace
`traceA` (program `> < +`) the returned matrix `derivedA` contains no
interweaved row at all, yet its adjacent rows 0 and 1 share memory pointer
0 with cycles 0 and 2.  The interweaving loop starts scanning at `i = 1`,
so the pair at positions 0 and 1 is never repaired. -/
theorem derive_matrix_first_pair_gap :
    deriveMatrix traceA 16 = .ok derivedA
    ∧ (derivedA.get ⟨1, by decide⟩).memoryPointer =
        (derivedA.get ⟨0, by decide⟩).memoryPointer
    ∧ (derivedA.get ⟨1, by decide⟩).cycle ≠ (derivedA.get ⟨0, by decide⟩).cycle + 1
    ∧ (derivedA.all fun row => row.interweaved == 0) = true := by decide

/-- Claim C2: on every derivation-accepted trace, all six base transition
constraints vanish on every adjacent row pair of the derived matrix.  The
code violates this: on the genuine VM trace `traceB` (program `> > < < +`,
all non-final instruction tags nonzero) the derived matrix `derivedB` has
rows 0 and 1 at the same pointer with a cycle gap the loop never repaired,
and constraint 2 — `(address_next - address - 1)·(cycle_next - cycle - 1)`
— evaluates to `-3 ≠ 0` on their concatenation. -/
theorem base_transition_constraint_nonzero_on_derived_pair :
    deriveMatrix traceB 16 = .ok derivedB
    ∧ MemoryTable.baseTransitionConstraints.length = 6
    ∧ (MemoryTable.baseTransitionConstraints.get ⟨1, by decide⟩).evaluate
        (basePairPoint (derivedB.get ⟨0, by decide⟩) (derivedB.get ⟨1, by decide⟩))
      = 0 - 3
    ∧ ((0 : BFieldElement) - 3) ≠ 0 := by decide

/-- Claim C5: on every derived-and-padded table, after `extend` all seven
polynomials of `transition_constraints_ext` vanish on every adjacent
extended row pair.  The code violates this: `derive_matrix` on the genuine
VM trace `traceC` (program `> + < +`) yields `derivedC`, already of
power-of-two length so that `pad` is the identity, and after extension
with all-zero challenges and initials the lifted constraint 2 evaluates to
a nonzero value on the concatenation of extended rows 0 and 1 (their
cycle gap at equal pointers was never interweaved). -/
theorem lifted_transition_constraint_nonzero_on_extended_pair :
    deriveMatrix traceC 16 = .ok derivedC
    ∧ MemoryTable.pad tableC = tableC
    ∧ (tableC.extend challengesZero initialsZero).extendedMatrix = extendedC
    ∧ (MemoryTable.transitionConstraintsExt challengesZero).length = 7
    ∧ ((MemoryTable.transitionConstraintsExt challengesZero).get ⟨1, by decide⟩).evaluate
        (extendedPairPoint (extendedC.get ⟨0, by decide⟩) (extendedC.get ⟨1, by decide⟩))
      ≠ 0 := by decide

theorem pow_clog_lt_of_not_pow (n : Nat) (_h1 : 1 ≤ n)
    (h2 : is_power_of_two n = false) : n < 2 ^ Nat.clog 2 n := by
  have hle : n ≤ 2 ^ Nat.clog 2 n := Nat.le_pow_clog (by norm_num) n
  rcases eq_or_lt_of_le hle with heq | hlt
  · have : is_power_of_two n = true := (is_power_of_two_iff n).mpr ⟨Nat.clog 2 n, heq⟩
    rw [this] at h2
    exact absurd h2 (by simp)
  · exact hlt

theorem padLoop_step (fuel : Nat) (m : List MemoryRow) (l : MemoryRow)
    (hpow : is_power_of_two m.length = false) (hl : m.getLast? = some l) :
    MemoryTable.padLoop (fuel + 1) m =
      MemoryTable.padLoop fuel (m ++ [MemoryTable.paddingRow l]) := by
  simp [MemoryTable.padLoop, hpow, hl]

theorem padLoop_spec (fuel : Nat) :
    ∀ m : List MemoryRow, m ≠ [] →
      2 ^ Nat.clog 2 m.length - m.length ≤ fuel →
      (∃ k, (MemoryTable.padLoop fuel m).length = 2 ^ k)
      ∧ m.length ≤ (MemoryTable.padLoop fuel m).length
      ∧ (MemoryTable.padLoop fuel m).take m.length = m
      ∧ ∀ (j : Nat) (hj : j + 1 < (MemoryTable.padLoop fuel m).length),
          m.length ≤ j + 1 →
          (MemoryTable.padLoop fuel m).get ⟨j + 1, hj⟩ =
            MemoryTable.paddingRow ((MemoryTable.padLoop fuel m).get ⟨j, by omega⟩) := by
  induction fuel with
  | zero =>
    intro m hne hfuel
    have hlen : 1 ≤ m.length := List.length_pos.mpr hne
    have hle : m.length ≤ 2 ^ Nat.clog 2 m.length := Nat.le_pow_clog (by norm_num) m.length
    have heq : m.length = 2 ^ Nat.clog 2 m.length := by omega
    refine ⟨⟨Nat.clog 2 m.length, by simpa [MemoryTable.padLoop] using heq⟩, ?_, ?_, ?_⟩
    · simp [MemoryTable.padLoop]
    · simp [MemoryTable.padLoop, List.take_length]
    · intro j hj hge
      simp only [MemoryTable.padLoop] at hj
      exact absurd hj (by omega)
  | succ fuel ih =>
    intro m hne hfuel
    by_cases hpow : is_power_of_two m.length
    · have hres : MemoryTable.padLoop (fuel + 1) m = m := by
        simp [MemoryTable.padLoop, hpow]
      rw [hres]
      obtain ⟨k, hk⟩ := (is_power_of_two_iff m.length).mp hpow
      exact ⟨⟨k, hk⟩, le_refl _, List.take_length m,
        fun j hj hge => absurd hj (by omega)⟩
    · have hpow' : is_power_of_two m.length = false := by
        simpa using hpow
      obtain ⟨l, hl⟩ : ∃ l, m.getLast? = some l :=
        ⟨m.getLast hne, List.getLast?_eq_getLast m hne⟩
      have hstep := padLoop_step fuel m l hpow' hl
      have hne' : m ++ [MemoryTable.paddingRow l] ≠ [] := by simp
      have hlen : 1 ≤ m.length := List.length_pos.mpr hne
      have hlt : m.length < 2 ^ Nat.clog 2 m.length :=
        pow_clog_lt_of_not_pow _ hlen hpow'
      have hlen' : (m ++ [MemoryTable.paddingRow l]).length = m.length + 1 := by simp
      have hclog : 2 ^ Nat.clog 2 (m.length + 1) ≤ 2 ^ Nat.clog 2 m.length :=
        Nat.pow_le_pow_right (by norm_num)
          ((Nat.le_pow_iff_clog_le (by norm_num)).mp hlt)
      have hfuel' :
          2 ^ Nat.clog 2 (m ++ [MemoryTable.paddingRow l]).length -
            (m ++ [MemoryTable.paddingRow l]).length ≤ fuel := by
        rw [hlen']
        omega
      obtain ⟨hpow2, hle2, htake2, happ2⟩ := ih (m ++ [MemoryTable.paddingRow l]) hne' hfuel'
      rw [hstep]
      set res := MemoryTable.padLoop fuel (m ++ [MemoryTable.paddingRow l]) with hres
      refine ⟨hpow2, by rw [hlen'] at hle2; omega, ?_, ?_⟩
      · have h1 : res.take m.length = (res.take (m ++ [MemoryTable.paddingRow l]).length).take m.length := by
          rw [List.take_take]
          congr 1
          rw [hlen']
          omega
        rw [h1, htake2, List.take_append_of_le_length (le_refl _), List.take_length]
      · intro j hj hge
        rcases Nat.lt_or_ge (j + 1) (m ++ [MemoryTable.paddingRow l]).length with hcase | hcase
        · have hj1 : j + 1 = m.length := by omega
          have hjres : j + 1 < res.length := hj
          have e1 : res[j + 1]? = (m ++ [MemoryTable.paddingRow l])[j + 1]? := by
            have h := congrArg (fun xs => xs[j + 1]?) htake2
            simpa [List.getElem?_take, show j < m.length by omega] using h
          have e2 : res[j]? = (m ++ [MemoryTable.paddingRow l])[j]? := by
            have h := congrArg (fun xs => xs[j]?) htake2
            simpa [List.getElem?_take, show j < m.length + 1 by omega] using h
          have v1 : (m ++ [MemoryTable.paddingRow l])[j + 1]? = some (MemoryTable.paddingRow l) := by
            rw [List.getElem?_append, if_neg (by omega)]
            simp [hj1]
          have v2 : (m ++ [MemoryTable.paddingRow l])[j]? = some l := by
            rw [List.getElem?_append, if_pos (by omega)]
            have hgl : m.getLast? = m[m.length - 1]? := List.getLast?_eq_getElem? m
            rw [hl] at hgl
            rw [show j = m.length - 1 by omega]
            exact hgl.symm
          have w1 : res[j + 1]? = some (MemoryTable.paddingRow l) := by rw [e1, v1]
          have w2 : res[j]? = some l := by rw [e2, v2]
          rw [List.getElem?_eq_getElem hjres] at w1
          rw [List.getElem?_eq_getElem (show j < res.length by omega)] at w2
          rw [List.get_eq_getElem, List.get_eq_getElem]
          simp only [Option.some.injEq] at w1 w2
          rw [w1, w2]
        · exact happ2 j hj hcase

/-- Claim C3: for every memory table with a nonempty matrix, after `pad()`
the matrix length is a power of two and at least the pre-padding length,
the pre-padding rows are unchanged, and every appended row equals the row
it duplicates except that its cycle is incremented by one and its
interweave flag is set to 1. -/
theorem pad_power_of_two_and_appended_rows (t : MemoryTable) (hne : t.matrix ≠ []) :
    (∃ k, (MemoryTable.pad t).matrix.length = 2 ^ k)
    ∧ t.matrix.length ≤ (MemoryTable.pad t).matrix.length
    ∧ (MemoryTable.pad t).matrix.take t.matrix.length = t.matrix
    ∧ ∀ (j : Nat) (hj : j + 1 < (MemoryTable.pad t).matrix.length),
        t.matrix.length ≤ j + 1 →
        (MemoryTable.pad t).matrix.get ⟨j + 1, hj⟩ =
          MemoryTable.paddingRow ((MemoryTable.pad t).matrix.get ⟨j, by omega⟩) := by
  have hlen : 1 ≤ t.matrix.length := List.length_pos.mpr hne
  have hfuel : 2 ^ Nat.clog 2 t.matrix.length - t.matrix.length ≤ t.matrix.length := by
    by_cases hpow : is_power_of_two t.matrix.length
    · obtain ⟨k, hk⟩ := (is_power_of_two_iff t.matrix.length).mp hpow
      rw [hk, Nat.clog_pow 2 k (by norm_num)]
      omega
    · have hpow' : is_power_of_two t.matrix.length = false := by simpa using hpow
      have h2 : 2 ≤ t.matrix.length := by
        by_contra hlt
        push_neg at hlt
        have h1 : t.matrix.length = 1 := by omega
        rw [h1] at hpow'
        exact absurd hpow' (by decide)
      have hpred : 2 ^ (Nat.clog 2 t.matrix.length - 1) < t.matrix.length :=
        Nat.pow_pred_clog_lt_self (by norm_num) h2
      have hcpos : 0 < Nat.clog 2 t.matrix.length := Nat.clog_pos (by norm_num) h2
      have hsplit : 2 ^ Nat.clog 2 t.matrix.length =
          2 ^ (Nat.clog 2 t.matrix.length - 1) * 2 := by
        rw [← pow_succ]
        congr 1
        omega
      omega
  exact padLoop_spec t.matrix.length t.matrix hne hfuel

/-- Witness for the padding theorem at the one-row table `tableOne`: its
single-row matrix already has power-of-two length, so padding leaves it
unchanged and the appended-row clause is vacuous. -/
theorem pad_power_of_two_and_appended_rows_witness :
    (∃ k, (MemoryTable.pad tableOne).matrix.length = 2 ^ k)
    ∧ tableOne.matrix.length ≤ (MemoryTable.pad tableOne).matrix.length
    ∧ (MemoryTable.pad tableOne).matrix.take tableOne.matrix.length = tableOne.matrix
    ∧ ∀ (j : Nat) (hj : j + 1 < (MemoryTable.pad tableOne).matrix.length),
        tableOne.matrix.length ≤ j + 1 →
        (MemoryTable.pad tableOne).matrix.get ⟨j + 1, hj⟩ =
          MemoryTable.paddingRow ((MemoryTable.pad tableOne).matrix.get ⟨j, by omega⟩) :=
  pad_power_of_two_and_appended_rows tableOne (by decide)

/-- Claim C7: calling `base_boundary_constraints` is a hard stop — its body
is a bare `todo!()` — so it never returns a value, in particular never an
empty or wrong-arity constraint list. -/
theorem base_boundary_constraints_hard_stop :
    ∀ t : MemoryTable, MemoryTable.baseBoundaryConstraints t = none :=
  fun _ => rfl

/-- Claim C8: `boundary_constraints_ext` returns exactly three polynomials
over `FULL_WIDTH` variables which vanish at a row point exactly when its
`CYCLE`, `MEMORY_POINTER` and `MEMORY_VALUE` entries are zero, and none of
the three reads the `INTERWEAVED` or `PERMUTATION` coordinate. -/
theorem boundary_constraints_ext_characterization
    (challenges : Fin 11 → XFieldElement) (point : Fin 5 → XFieldElement) :
    (MemoryTable.boundaryConstraintsExt challenges).length = 3
    ∧ ((∀ q ∈ MemoryTable.boundaryConstraintsExt challenges, q.evaluate point = 0) ↔
        point 0 = 0 ∧ point 1 = 0 ∧ point 2 = 0)
    ∧ ∀ q ∈ MemoryTable.boundaryConstraintsExt challenges,
        ∀ point2 : Fin 5 → XFieldElement,
          point 0 = point2 0 → point 1 = point2 1 → point 2 = point2 2 →
            q.evaluate point = q.evaluate point2 := by
  refine ⟨rfl, ?_, ?_⟩
  · simp [MemoryTable.boundaryConstraintsExt, MPolynomial.evaluate, MPolynomial.xvar,
      Pi.sub_apply, sub_zero]
  · intro q hq point2 h0 h1 h2
    simp only [MemoryTable.boundaryConstraintsExt, List.mem_cons,
      List.not_mem_nil, or_false] at hq
    rcases hq with hq | hq | hq <;> subst hq <;>
      simp [MPolynomial.evaluate, MPolynomial.xvar, Pi.sub_apply, h0, h1, h2]

theorem extendedRowPoint_zero (r : ExtendedRow) : extendedRowPoint r 0 = r.cycle := rfl

theorem extendedRowPoint_one (r : ExtendedRow) : extendedRowPoint r 1 = r.memoryPointer := rfl

theorem extendedRowPoint_two (r : ExtendedRow) : extendedRowPoint r 2 = r.memoryValue := rfl

theorem extendedRowPoint_three (r : ExtendedRow) : extendedRowPoint r 3 = r.interweaved := rfl

theorem extendedRowPoint_four (r : ExtendedRow) : extendedRowPoint r 4 = r.permutation := rfl

theorem permutationProduct_nil (challenges : Fin 11 → XFieldElement) :
    permutationProduct challenges [] = 1 := rfl

theorem permutationProduct_cons (challenges : Fin 11 → XFieldElement)
    (row : MemoryRow) (rest : List MemoryRow) :
    permutationProduct challenges (row :: rest) =
      (if row.interweaved = 0 then rowFactor challenges row else 1) *
        permutationProduct challenges rest := by
  by_cases hz : row.interweaved = 0 <;>
    simp [permutationProduct, List.filter_cons, hz]

theorem permutationProduct_append (challenges : Fin 11 → XFieldElement)
    (l1 l2 : List MemoryRow) :
    permutationProduct challenges (l1 ++ l2) =
      permutationProduct challenges l1 * permutationProduct challenges l2 := by
  simp [permutationProduct, List.filter_append, List.prod_append]

theorem extendRows_characterization (challenges : Fin 11 → XFieldElement) :
    ∀ (rows : List MemoryRow) (p0 : XFieldElement),
      (extendRows (challenges 3) (challenges 4) (challenges 5) (challenges 7) p0 rows).2 =
        p0 * permutationProduct challenges rows
      ∧ (extendRows (challenges 3) (challenges 4) (challenges 5) (challenges 7) p0
          rows).1.length = rows.length
      ∧ ∀ (i : Nat) (r : MemoryRow), rows[i]? = some r →
          (extendRows (challenges 3) (challenges 4) (challenges 5) (challenges 7) p0
            rows).1[i]? =
            some (liftRow r (p0 * permutationProduct challenges (rows.take i))) := by
  intro rows
  induction rows with
  | nil =>
    intro p0
    refine ⟨by simp [extendRows, permutationProduct_nil], rfl, ?_⟩
    intro i r hir
    simp at hir
  | cons row rest ih =>
    intro p0
    have hcons :
        extendRows (challenges 3) (challenges 4) (challenges 5) (challenges 7) p0
            (row :: rest) =
          (liftRow row p0 ::
              (extendRows (challenges 3) (challenges 4) (challenges 5) (challenges 7)
                (if BFieldElement.lift row.interweaved = 0 then
                  p0 * rowFactor challenges row
                else p0) rest).1,
            (extendRows (challenges 3) (challenges 4) (challenges 5) (challenges 7)
              (if BFieldElement.lift row.interweaved = 0 then
                p0 * rowFactor challenges row
              else p0) rest).2) := rfl
    have hifeq :
        (if BFieldElement.lift row.interweaved = 0 then p0 * rowFactor challenges row
          else p0) =
          p0 * (if row.interweaved = 0 then rowFactor challenges row else 1) := by
      by_cases hz : row.interweaved = 0
      · rw [if_pos (BFieldElement.lift_eq_zero.mpr hz), if_pos hz]
      · rw [if_neg fun hc => hz (BFieldElement.lift_eq_zero.mp hc), if_neg hz, mul_one]
    obtain ⟨ih1, ih2, ih3⟩ :=
      ih (if BFieldElement.lift row.interweaved = 0 then p0 * rowFactor challenges row
          else p0)
    refine ⟨?_, ?_, ?_⟩
    · rw [hcons]
      dsimp only
      rw [ih1, hifeq, permutationProduct_cons]
      ring
    · rw [hcons]
      dsimp only
      rw [List.length_cons, List.length_cons, ih2]
    · intro i r hir
      rw [hcons]
      cases i with
      | zero =>
        simp only [List.getElem?_cons_zero, Option.some.injEq] at hir
        subst hir
        dsimp only
        rw [List.getElem?_cons_zero]
        rw [List.take_zero, permutationProduct_nil, mul_one]
      | succ i =>
        have hir2 : rest[i]? = some r := by simpa using hir
        have hidx := ih3 i r hir2
        dsimp only
        rw [List.getElem?_cons_succ, hidx]
        have hprod :
            (if BFieldElement.lift row.interweaved = 0 then p0 * rowFactor challenges row
              else p0) * permutationProduct challenges (rest.take i) =
              p0 * permutationProduct challenges ((row :: rest).take (i + 1)) := by
          rw [hifeq, show (row :: rest).take (i + 1) = row :: rest.take i from rfl,
            permutationProduct_cons]
          ring
        rw [hprod]

/-- Claim C4: after `extend` with challenges `ch` and initials `init`, the
`PERMUTATION` column (index 4) of extended row `i` equals `init 1`
multiplied by the product, over the non-interweaved rows `j < i`, of
`ch 7 - ch 3 · cycle_j - ch 4 · memory_pointer_j - ch 5 · memory_value_j`,
and `permutation_terminal` equals that product taken over all rows of the
matrix; interweaved rows contribute no factor. -/
theorem extend_permutation_running_product (t : MemoryTable)
    (challenges : Fin 11 → XFieldElement) (initials : Fin 2 → XFieldElement) :
    (∀ (i : Nat) (x : ExtendedRow),
        (t.extend challenges initials).extendedMatrix[i]? = some x →
          x.permutation = initials 1 * permutationProduct challenges (t.matrix.take i))
    ∧ (t.extend challenges initials).permutationTerminal =
        initials 1 * permutationProduct challenges t.matrix := by
  obtain ⟨h2, hlen, h3⟩ := extendRows_characterization challenges t.matrix (initials 1)
  constructor
  · intro i x hx
    have hxm : (t.extend challenges initials).extendedMatrix =
        (extendRows (challenges 3) (challenges 4) (challenges 5) (challenges 7)
          (initials 1) t.matrix).1 := rfl
    rw [hxm] at hx
    have hi : i < t.matrix.length := by
      obtain ⟨hlt, -⟩ := List.getElem?_eq_some.mp hx
      omega
    obtain ⟨r, hr⟩ : ∃ r, t.matrix[i]? = some r := ⟨_, List.getElem?_eq_getElem hi⟩
    rw [h3 i r hr] at hx
    simp only [Option.some.injEq] at hx
    rw [← hx]
    rfl
  · exact h2

/-- Witness for the running-product theorem at the one-row table, a zero
challenge tuple and the constant initials tuple `initialsTwo`: extended row
0 carries the seed itself, which the theorem equates with seed times the
empty product. -/
theorem extend_permutation_running_product_witness :
    (liftRow ⟨0, 0, 0, 0⟩ ⟨2, 0, 0⟩).permutation =
      initialsTwo 1 * permutationProduct challengesZero (tableOne.matrix.take 0) :=
  (extend_permutation_running_product tableOne challengesZero initialsTwo).1 0
    (liftRow ⟨0, 0, 0, 0⟩ ⟨2, 0, 0⟩) (by decide)

theorem extend_last_row_terminal (t : MemoryTable)
    (challenges : Fin 11 → XFieldElement) (initials : Fin 2 → XFieldElement)
    (lastBase : MemoryRow) (lastExt : ExtendedRow)
    (hbase : t.matrix.getLast? = some lastBase)
    (hext : (t.extend challenges initials).extendedMatrix.getLast? = some lastExt) :
    lastExt = liftRow lastBase lastExt.permutation
    ∧ (t.extend challenges initials).permutationTerminal =
        (if lastBase.interweaved = 0 then
          lastExt.permutation * rowFactor challenges lastBase
        else lastExt.permutation) := by
  obtain ⟨h2, hlen, h3⟩ := extendRows_characterization challenges t.matrix (initials 1)
  have hne : t.matrix ≠ [] := by
    intro hempty
    rw [hempty] at hbase
    simp at hbase
  have hnlen : 1 ≤ t.matrix.length := List.length_pos.mpr hne
  have hbase2 : t.matrix[t.matrix.length - 1]? = some lastBase := by
    rw [← List.getLast?_eq_getElem?]
    exact hbase
  have hxm : (t.extend challenges initials).extendedMatrix =
      (extendRows (challenges 3) (challenges 4) (challenges 5) (challenges 7)
        (initials 1) t.matrix).1 := rfl
  have hidx := h3 (t.matrix.length - 1) lastBase hbase2
  have hext2 : lastExt =
      liftRow lastBase
        (initials 1 * permutationProduct challenges
          (t.matrix.take (t.matrix.length - 1))) := by
    rw [hxm, List.getLast?_eq_getElem?, hlen, hidx] at hext
    simpa using hext.symm
  have hsplit : t.matrix = t.matrix.take (t.matrix.length - 1) ++ [lastBase] := by
    have h := List.dropLast_append_getLast hne
    have hgl : t.matrix.getLast hne = lastBase := by
      have hq := List.getLast?_eq_getLast t.matrix hne
      rw [hq] at hbase
      simpa using hbase
    rw [hgl] at h
    rw [← List.dropLast_eq_take]
    exact h.symm
  constructor
  · rw [hext2]
    rfl
  · have hterm : (t.extend challenges initials).permutationTerminal =
        initials 1 * permutationProduct challenges t.matrix := h2
    rw [hterm, hext2]
    conv_lhs => rw [hsplit]
    rw [permutationProduct_append, permutationProduct_cons, permutationProduct_nil]
    by_cases hz : lastBase.interweaved = 0
    · rw [if_pos hz, if_pos hz]
      dsimp [liftRow]
      ring
    · rw [if_neg hz, if_neg hz]
      dsimp [liftRow]
      ring

/-- Claim C6: after `extend`, the single polynomial returned by
`terminal_constraints_ext` evaluates to the additive identity at the final
row of the extended matrix whenever the supplied `terminals 1` equals the
table's own computed `permutation_terminal`, in both the interweaved and
the non-interweaved case of that final row. -/
theorem terminal_constraint_vanishes_at_last_row (t : MemoryTable)
    (challenges : Fin 11 → XFieldElement) (initials : Fin 2 → XFieldElement)
    (terminals : Fin 2 → XFieldElement) (lastBase : MemoryRow) (lastExt : ExtendedRow)
    (hbase : t.matrix.getLast? = some lastBase)
    (hflag : lastBase.interweaved = 0 ∨ lastBase.interweaved = 1)
    (hext : (t.extend challenges initials).extendedMatrix.getLast? = some lastExt)
    (hterm : terminals 1 = (t.extend challenges initials).permutationTerminal) :
    ∀ q ∈ MemoryTable.terminalConstraintsExt challenges terminals,
      q.evaluate (extendedRowPoint lastExt) = 0 := by
  obtain ⟨hrow, hterm2⟩ :=
    extend_last_row_terminal t challenges initials lastBase lastExt hbase hext
  have hc : lastExt.cycle = BFieldElement.lift lastBase.cycle := by
    rw [hrow]
    rfl
  have hm : lastExt.memoryPointer = BFieldElement.lift lastBase.memoryPointer := by
    rw [hrow]
    rfl
  have hv : lastExt.memoryValue = BFieldElement.lift lastBase.memoryValue := by
    rw [hrow]
    rfl
  have hw : lastExt.interweaved = BFieldElement.lift lastBase.interweaved := by
    rw [hrow]
    rfl
  intro q hq
  simp only [MemoryTable.terminalConstraintsExt, List.mem_cons, List.not_mem_nil,
    or_false] at hq
  subst hq
  simp only [MPolynomial.evaluate, MPolynomial.fromConstant, MPolynomial.xvar,
    Pi.add_apply, Pi.sub_apply, Pi.mul_apply]
  rw [extendedRowPoint_zero, extendedRowPoint_one, extendedRowPoint_two,
    extendedRowPoint_three, extendedRowPoint_four]
  rw [hc, hm, hv, hw, hterm, hterm2]
  rcases hflag with hz | ho
  · rw [if_pos hz, hz, BFieldElement.lift_zero]
    simp only [rowFactor]
    ring
  · have hno : ¬ lastBase.interweaved = 0 := by
      rw [ho]
      decide
    rw [if_neg hno, ho, BFieldElement.lift_one]
    ring

/-- Witness for the terminal-constraint theorem at the one-row table with
zero challenges, initials and terminals: the final row is non-interweaved
and the computed terminal is zero. -/
theorem terminal_constraint_vanishes_at_last_row_witness :
    ((MemoryTable.terminalConstraintsExt challengesZero terminalsZero).get
        ⟨0, by decide⟩).evaluate (extendedRowPoint (liftRow ⟨0, 0, 0, 0⟩ 0)) = 0 :=
  terminal_constraint_vanishes_at_last_row tableOne challengesZero initialsZero
    terminalsZero ⟨0, 0, 0, 0⟩ (liftRow ⟨0, 0, 0, 0⟩ 0) (by decide)
    (Or.inl (by decide)) (by decide) (by decide)
    ((MemoryTable.terminalConstraintsExt challengesZero terminalsZero).get
      ⟨0, by decide⟩)
    (List.get_mem _ _ (by decide))

/-- Claim C9: `extend` reads only challenge indices 3, 4, 5 and 7 and only
initials index 1, and the two extension constraint builders read only the
same challenge indices: for challenge tuples agreeing at 3, 4, 5, 7 and
initials agreeing at 1, on the same table state, `extend` produces the
identical table (extended matrix, extended codewords and permutation
terminal included) and `transition_constraints_ext` and
`terminal_constraints_ext` return identical polynomial lists. -/
theorem extend_and_constraints_read_only_relevant_indices (t : MemoryTable)
    (chA chB : Fin 11 → XFieldElement) (initA initB : Fin 2 → XFieldElement)
    (terminals : Fin 2 → XFieldElement)
    (h3 : chA 3 = chB 3) (h4 : chA 4 = chB 4) (h5 : chA 5 = chB 5)
    (h7 : chA 7 = chB 7) (hinit : initA 1 = initB 1) :
    t.extend chA initA = t.extend chB initB
    ∧ MemoryTable.transitionConstraintsExt chA = MemoryTable.transitionConstraintsExt chB
    ∧ MemoryTable.terminalConstraintsExt chA terminals =
        MemoryTable.terminalConstraintsExt chB terminals := by
  refine ⟨?_, ?_, ?_⟩
  · simp only [MemoryTable.extend]
    rw [h3, h4, h5, h7, hinit]
  · simp only [MemoryTable.transitionConstraintsExt]
    rw [h3, h4, h5, h7]
  · simp only [MemoryTable.terminalConstraintsExt]
    rw [h3, h4, h5, h7]

/-- Witness for the noninterference theorem: `challengesAtZero` and
`initialsAtZero` differ from the all-zero tuples exactly at the unused
index 0, and all outputs coincide. -/
theorem extend_and_constraints_read_only_relevant_indices_witness :
    tableOne.extend challengesAtZero initialsAtZero =
        tableOne.extend challengesZero initialsZero
    ∧ MemoryTable.transitionConstraintsExt challengesAtZero =
        MemoryTable.transitionConstraintsExt challengesZero
    ∧ MemoryTable.terminalConstraintsExt challengesAtZero terminalsZero =
        MemoryTable.terminalConstraintsExt challengesZero terminalsZero :=
  extend_and_constraints_read_only_relevant_indices tableOne challengesAtZero
    challengesZero initialsAtZero initialsZero terminalsZero (by decide) (by decide)
    (by decide) (by decide) (by decide)

/-- Claim C10: `derive_matrix` is total only for register traces with at
least two rows.  For an empty or single-row trace the projected matrix is
empty, the loop bound `matrix.len() - 1` underflows its unsigned type and
derivation fails rather than returning an empty matrix.  For traces with at
least two rows that subtraction is in bounds — the sorted matrix is
nonempty — and derivation never fails with the underflow; every index
access of the loop is guarded by `i < matrix.len() - 1` and is in bounds by
construction in the embedding. -/
theorem derive_matrix_underflow_on_short_traces (processorMatrix : List Register)
    (fuel : Nat) :
    (processorMatrix.length ≤ 1 →
      projectedRows processorMatrix = []
      ∧ deriveMatrix processorMatrix fuel = .error .lengthUnderflow)
    ∧ (2 ≤ processorMatrix.length →
        deriveMatrix processorMatrix fuel ≠ .error .lengthUnderflow) := by
  constructor
  · intro hshort
    have hdrop : processorMatrix.dropLast = [] := by
      rcases processorMatrix with - | ⟨a, rest⟩
      · rfl
      · rcases rest with - | ⟨b, rest2⟩
        · rfl
        · simp at hshort
    have hproj : projectedRows processorMatrix = [] := by
      simp [projectedRows, hdrop]
    refine ⟨hproj, ?_⟩
    simp [deriveMatrix, hdrop, hproj]
  · intro hlong hbad
    have hdroplen : processorMatrix.dropLast.length = processorMatrix.length - 1 :=
      List.length_dropLast processorMatrix
    by_cases hassert :
        (processorMatrix.dropLast.any fun pt => pt.currentInstruction == 0) = true
    · rw [deriveMatrix, if_pos hassert] at hbad
      simp at hbad
    · rw [deriveMatrix, if_neg hassert] at hbad
      have hslen :
          (List.insertionSort memoryPointerLe (projectedRows processorMatrix)).length =
            processorMatrix.length - 1 := by
        rw [List.length_insertionSort, projectedRows, List.length_map, hdroplen]
      simp only [hslen] at hbad
      rw [if_neg (by omega : ¬ processorMatrix.length - 1 = 0)] at hbad
      rcases hloop : interweaveLoop fuel 1
          (List.insertionSort memoryPointerLe (projectedRows processorMatrix)) with - | m
      · rw [hloop] at hbad
        simp at hbad
      · rw [hloop] at hbad
        simp at hbad

/-- Witness for the underflow theorem at the empty trace: the projection is
empty and derivation reports the underflow failure. -/
theorem derive_matrix_underflow_on_short_traces_witness :
    projectedRows ([] : List Register) = []
    ∧ deriveMatrix ([] : List Register) 4 = .error .lengthUnderflow :=
  (derive_matrix_underflow_on_short_traces [] 4).1 (by decide)

/-- Witness for the boundary-constraint characterization, instantiated at
the zero challenge tuple and the point of the all-zero extended row. -/
theorem boundary_constraints_ext_characterization_witness :
    (MemoryTable.boundaryConstraintsExt challengesZero).length = 3
    ∧ ((∀ q ∈ MemoryTable.boundaryConstraintsExt challengesZero,
          q.evaluate (extendedRowPoint (liftRow ⟨0, 0, 0, 0⟩ 0)) = 0) ↔
        extendedRowPoint (liftRow ⟨0, 0, 0, 0⟩ 0) 0 = 0
        ∧ extendedRowPoint (liftRow ⟨0, 0, 0, 0⟩ 0) 1 = 0
        ∧ extendedRowPoint (liftRow ⟨0, 0, 0, 0⟩ 0) 2 = 0)
    ∧ ∀ q ∈ MemoryTable.boundaryConstraintsExt challengesZero,
        ∀ point2 : Fin 5 → XFieldElement,
          extendedRowPoint (liftRow ⟨0, 0, 0, 0⟩ 0) 0 = point2 0 →
          extendedRowPoint (liftRow ⟨0, 0, 0, 0⟩ 0) 1 = point2 1 →
          extendedRowPoint (liftRow ⟨0, 0, 0, 0⟩ 0) 2 = point2 2 →
            q.evaluate (extendedRowPoint (liftRow ⟨0, 0, 0, 0⟩ 0)) = q.evaluate point2 :=
  boundary_constraints_ext_characterization challengesZero
    (extendedRowPoint (liftRow ⟨0, 0, 0, 0⟩ 0))
